import Mathlib

/-!
Verification of the streaming top-K ranker and ranking metrics of
`src/project/utils/score.py` (repository Urdat/GNN-CF).

The development shallowly embeds the code:

* scores are modelled as `Option ℤ` where `none` stands for the `-inf`
  sentinel written by `torch.full(..., fill_value=-torch.inf)`; real scores
  are `some v` (the claims are purely order-theoretic, so exact integers
  faithfully model the float comparisons);
* labels are modelled as `ℤ` (the code stores the float labels, which the
  interface restricts to binary 0/1 values);
* `torch.topk(..., sorted=False)` followed by the global
  `argsort(descending=True)` / `gather` pair is modelled as a stable
  descending insertion sort on (score, label) pairs; PyTorch leaves tie
  order between equal scores unspecified, and stability is the
  determinization chosen here;
* `torch.empty` (uninitialized memory for `lbl_buf` and `lbl_tmp`) is
  modelled by an arbitrary fill function / pad value passed as an explicit
  parameter, so theorems quantifying over it capture the arbitrariness;
* the real-valued metric formulas (`ndcg_score`, `recall_score`,
  `composite`) are embedded over `ℝ`, with `log2` as `Real.logb 2`;
  float rounding is not modelled (the claims are about the exact formulas).
-/

namespace GnnCF

/-- A buffer entry: predicted score (with `none` as the `-inf` sentinel)
paired with its ground-truth label, mirroring the score/label buffer pair of
`rank` which is always permuted by one shared index tensor. -/
abbrev Entry := Option ℤ × ℤ

/-- Order on sentinel-extended scores: `none` (that is `-inf`) is below
every real score. -/
def kle : Option ℤ → Option ℤ → Bool
  | none, _ => true
  | some _, none => false
  | some x, some y => decide (x ≤ y)

theorem kle_refl (a : Option ℤ) : kle a a = true := by
  cases a <;> simp [kle]

theorem kle_total (a b : Option ℤ) : kle a b = true ∨ kle b a = true := by
  cases a <;> cases b <;> simp [kle] <;> omega

theorem kle_antisymm {a b : Option ℤ} (h₁ : kle a b = true) (h₂ : kle b a = true) :
    a = b := by
  cases a <;> cases b <;> simp_all [kle] <;> omega

theorem kle_trans {a b c : Option ℤ} (h₁ : kle a b = true) (h₂ : kle b c = true) :
    kle a c = true := by
  cases a <;> cases b <;> cases c <;> simp_all [kle] <;> omega

theorem kle_of_not_kle {a b : Option ℤ} (h : ¬ kle a b = true) : kle b a = true := by
  rcases kle_total a b with h' | h'
  · exact absurd h' h
  · exact h'

theorem ne_of_not_kle {a b : Option ℤ} (h : ¬ kle a b = true) : a ≠ b := by
  intro he
  exact h (he ▸ kle_refl a)

/-- Stable insertion of an entry into a descending-by-score list: the new
entry is placed before any entry with score less than or equal to its own
(the new entry is always the earliest-seen one because the sort folds from
the right). -/
def insDesc (x : Entry) : List Entry → List Entry
  | [] => [x]
  | y :: ys => if kle y.1 x.1 then x :: y :: ys else y :: insDesc x ys

/-- Stable descending-by-score sort, modelling
`argsort(dim=-1, descending=True)` followed by `gather` on both buffers. -/
def sortDesc (l : List Entry) : List Entry := l.foldr insDesc []

/-- The list is sorted by descending score. -/
def DescSorted (l : List Entry) : Prop :=
  l.Pairwise (fun a b => kle b.1 a.1 = true)

theorem insDesc_length (x : Entry) (l : List Entry) :
    (insDesc x l).length = l.length + 1 := by
  induction l with
  | nil => rfl
  | cons y ys ih =>
    by_cases h : kle y.1 x.1 = true <;> simp [insDesc, h, ih]

theorem sortDesc_length (l : List Entry) : (sortDesc l).length = l.length := by
  induction l with
  | nil => rfl
  | cons x xs ih => simp [sortDesc, List.foldr] at ih ⊢; rw [insDesc_length, ih]

theorem mem_insDesc {x y : Entry} {l : List Entry} :
    y ∈ insDesc x l ↔ y = x ∨ y ∈ l := by
  induction l with
  | nil => simp [insDesc]
  | cons z zs ih =>
    by_cases h : kle z.1 x.1 = true <;> simp [insDesc, h, ih] <;> tauto

theorem insDesc_sorted {x : Entry} {l : List Entry} (hl : DescSorted l) :
    DescSorted (insDesc x l) := by
  induction l with
  | nil => simp [insDesc, DescSorted]
  | cons y ys ih =>
    rcases List.pairwise_cons.mp hl with ⟨hy, hys⟩
    by_cases h : kle y.1 x.1 = true
    · rw [insDesc, if_pos h]
      refine List.pairwise_cons.mpr ⟨?_, hl⟩
      intro z hz
      rcases List.mem_cons.mp hz with hz | hz
      · exact hz ▸ h
      · exact kle_trans (hy z hz) h
    · rw [insDesc, if_neg h]
      refine List.pairwise_cons.mpr ⟨?_, ih hys⟩
      intro z hz
      rcases mem_insDesc.mp hz with hz | hz
      · exact hz ▸ kle_of_not_kle h
      · exact hy z hz

theorem sortDesc_sorted (l : List Entry) : DescSorted (sortDesc l) := by
  induction l with
  | nil => exact List.Pairwise.nil
  | cons x xs ih => exact insDesc_sorted ih

/-- Filtering on an exact score key commutes with stable insertion. -/
theorem filter_insDesc (k : Option ℤ) (x : Entry) (l : List Entry) :
    (insDesc x l).filter (fun p => decide (p.1 = k)) =
      (x :: l).filter (fun p => decide (p.1 = k)) := by
  induction l with
  | nil => rfl
  | cons y ys ih =>
    by_cases h : kle y.1 x.1 = true
    · simp [insDesc, h]
    · have hne : x.1 ≠ y.1 := (ne_of_not_kle h).symm
      rw [insDesc, if_neg h]
      by_cases hx : x.1 = k
      · have hy : ¬ y.1 = k := fun hyk => hne (hx ▸ hyk ▸ rfl)
        simp only [List.filter_cons, hx, hy] at ih ⊢
        simp only [decide_eq_true_eq, if_pos trivial] at ih ⊢
        simp [hy, ih]
      · by_cases hy : y.1 = k <;> simp [List.filter_cons, hx, hy, ih]

/-- Filtering on an exact score key is invariant under the stable sort:
this is the stability property of `sortDesc`. -/
theorem filter_sortDesc (k : Option ℤ) (l : List Entry) :
    (sortDesc l).filter (fun p => decide (p.1 = k)) =
      l.filter (fun p => decide (p.1 = k)) := by
  induction l with
  | nil => rfl
  | cons x xs ih =>
    show (insDesc x (sortDesc xs)).filter _ = _
    rw [filter_insDesc]
    simp only [List.filter_cons]
    by_cases hx : x.1 = k <;> simp [hx, ih]

theorem insDesc_perm (x : Entry) (l : List Entry) :
    List.Perm (insDesc x l) (x :: l) := by
  induction l with
  | nil => exact List.Perm.refl _
  | cons y ys ih =>
    by_cases h : kle y.1 x.1 = true
    · rw [insDesc, if_pos h]
    · rw [insDesc, if_neg h]
      exact ((ih.cons y).trans (List.Perm.swap x y ys))

theorem sortDesc_perm (l : List Entry) : List.Perm (sortDesc l) l := by
  induction l with
  | nil => exact List.Perm.refl _
  | cons x xs ih => exact (insDesc_perm x (sortDesc xs)).trans (ih.cons x)

/-- A descending-sorted list with the same per-score-key filters as another
descending-sorted list is equal to it: sortedness plus stability determine
the output of the sort uniquely. -/
theorem eq_of_sorted_of_filter_eq :
    ∀ {o₁ o₂ : List Entry}, DescSorted o₁ → DescSorted o₂ →
      (∀ k, o₁.filter (fun p => decide (p.1 = k)) = o₂.filter (fun p => decide (p.1 = k))) →
      o₁ = o₂ := by
  intro o₁
  induction o₁ with
  | nil =>
    intro o₂ _ _ hf
    cases o₂ with
    | nil => rfl
    | cons y ys =>
      have h := hf y.1
      simp [List.filter_cons] at h
  | cons x xs ih =>
    intro o₂ h₁ h₂ hf
    cases o₂ with
    | nil =>
      have h := hf x.1
      simp [List.filter_cons] at h
    | cons y ys =>
      have hkey : x.1 = y.1 := by
        by_contra hne
        have hx : x ∈ ys := by
          have h := hf x.1
          simp only [List.filter_cons, decide_eq_true_eq, if_pos trivial] at h
          rw [if_neg (fun hc : y.1 = x.1 => hne hc.symm)] at h
          have : x ∈ ys.filter (fun p => decide (p.1 = x.1)) := by
            rw [← h]; exact List.mem_cons_self x _
          exact List.mem_of_mem_filter this
        have hy : y ∈ xs := by
          have h := hf y.1
          simp only [List.filter_cons, decide_eq_true_eq, if_pos trivial] at h
          rw [if_neg hne] at h
          have : y ∈ xs.filter (fun p => decide (p.1 = y.1)) := by
            rw [h]; exact List.mem_cons_self y _
          exact List.mem_of_mem_filter this
        exact hne (kle_antisymm
          ((List.pairwise_cons.mp h₂).1 x hx)
          ((List.pairwise_cons.mp h₁).1 y hy))
      have hf₀ := hf x.1
      simp only [List.filter_cons, decide_eq_true_eq, if_pos trivial] at hf₀
      rw [if_pos hkey.symm] at hf₀
      have hxy : x = y := (List.cons.injEq _ _ _ _).mp hf₀ |>.1
      have htail : ∀ k, xs.filter (fun p => decide (p.1 = k)) =
          ys.filter (fun p => decide (p.1 = k)) := by
        intro k
        by_cases hk : k = x.1
        · subst hk
          exact (List.cons.injEq _ _ _ _).mp hf₀ |>.2
        · have h := hf k
          simp only [List.filter_cons, decide_eq_true_eq] at h
          rw [if_neg (fun hc : x.1 = k => hk hc.symm),
            if_neg (fun hc : y.1 = k => hk (hkey.trans hc).symm)] at h
          exact h
      rw [hxy, ih (List.pairwise_cons.mp h₁).2 (List.pairwise_cons.mp h₂).2 htail]

/-- Score strictly above the key `k`. -/
def gtK (k : Option ℤ) (p : Entry) : Bool := kle k p.1 && !(decide (p.1 = k))

/-- Score equal to the key `k`. -/
def eqK (k : Option ℤ) (p : Entry) : Bool := decide (p.1 = k)

/-- Score strictly below the key `k`. -/
def ltK (k : Option ℤ) (p : Entry) : Bool := !(kle k p.1)

/-- A descending-sorted list splits into its strictly-above, equal, and
strictly-below blocks with respect to any score key. -/
theorem sorted_partition (k₀ : Option ℤ) : ∀ {O : List Entry}, DescSorted O →
    O = O.filter (gtK k₀) ++ O.filter (eqK k₀) ++ O.filter (ltK k₀) := by
  intro O
  induction O with
  | nil => intro _; rfl
  | cons x xs ih =>
    intro h
    have hxs := (List.pairwise_cons.mp h).2
    have hdom := (List.pairwise_cons.mp h).1
    by_cases hle : kle k₀ x.1 = true
    · by_cases heq : x.1 = k₀
      · have hgt : xs.filter (gtK k₀) = [] := by
          refine List.filter_eq_nil_iff.mpr ?_
          intro z hz
          simp only [gtK, Bool.and_eq_true, Bool.not_eq_true', decide_eq_false_iff_not]
          intro ⟨hz₁, hz₂⟩
          exact hz₂ (kle_antisymm (heq ▸ hdom z hz) hz₁)
        have hx : gtK k₀ x = false := by
          simp [gtK, heq]
        rw [List.filter_cons_of_neg (by simp [hx]),
          List.filter_cons_of_pos (by simp [eqK, heq]),
          List.filter_cons_of_neg (by simp [ltK, heq, kle_refl])]
        have hthis := ih hxs
        rw [hgt] at hthis
        conv_lhs => rw [hthis]
        rw [hgt]
        rfl
      · rw [List.filter_cons_of_pos (by simp [gtK, hle, heq]),
          List.filter_cons_of_neg (by simp [eqK, heq]),
          List.filter_cons_of_neg (by simp [ltK, hle])]
        conv_lhs => rw [ih hxs]
        simp
    · have hall : ∀ z ∈ xs, ¬ kle k₀ z.1 = true := by
        intro z hz hc
        exact hle (kle_trans hc (hdom z hz))
      have hgt : xs.filter (gtK k₀) = [] := by
        refine List.filter_eq_nil_iff.mpr ?_
        intro z hz
        simp only [gtK, Bool.and_eq_true]
        intro ⟨hz₁, _⟩
        exact hall z hz hz₁
      have heqn : xs.filter (eqK k₀) = [] := by
        refine List.filter_eq_nil_iff.mpr ?_
        intro z hz
        simp only [eqK, decide_eq_true_eq]
        intro hz₁
        exact hall z hz (hz₁ ▸ kle_refl _)
      have hxeq : ¬ x.1 = k₀ := by
        intro hc
        exact hle (hc ▸ kle_refl _)
      rw [List.filter_cons_of_neg (by simp [gtK, hle]),
        List.filter_cons_of_neg (by simp [eqK, hxeq]),
        List.filter_cons_of_pos (by simp [ltK, hle])]
      have hthis := ih hxs
      rw [hgt, heqn] at hthis
      conv_lhs => rw [hthis]
      rw [hgt, heqn]
      rfl

/-- Sorting a list that is already descending-sorted leaves it unchanged
(this includes the tie blocks, by stability). -/
theorem sortDesc_eq_self {l : List Entry} (h : DescSorted l) : sortDesc l = l :=
  eq_of_sorted_of_filter_eq (sortDesc_sorted l) h (fun k => filter_sortDesc k l)

/-- Pre-sorting the left part of an append does not change the sort. -/
theorem sortDesc_sortDesc_append (X Y : List Entry) :
    sortDesc (sortDesc X ++ Y) = sortDesc (X ++ Y) :=
  eq_of_sorted_of_filter_eq (sortDesc_sorted _) (sortDesc_sorted _) (fun k => by
    rw [filter_sortDesc, filter_sortDesc, List.filter_append, List.filter_append,
      filter_sortDesc])

/-- Pre-sorting the right part of an append does not change the sort. -/
theorem sortDesc_append_sortDesc (X Y : List Entry) :
    sortDesc (X ++ sortDesc Y) = sortDesc (X ++ Y) :=
  eq_of_sorted_of_filter_eq (sortDesc_sorted _) (sortDesc_sorted _) (fun k => by
    rw [filter_sortDesc, filter_sortDesc, List.filter_append, List.filter_append,
      filter_sortDesc])

theorem countP_ge_eq_gt_add_eq (k₀ : Option ℤ) (l : List Entry) :
    l.countP (fun p => kle k₀ p.1) = l.countP (gtK k₀) + l.countP (eqK k₀) := by
  induction l with
  | nil => rfl
  | cons x xs ih =>
    by_cases hle : kle k₀ x.1 = true
    · by_cases heq : x.1 = k₀
      · rw [List.countP_cons_of_pos _ _ (by simpa using hle),
          List.countP_cons_of_neg _ _ (by simp [gtK, heq]),
          List.countP_cons_of_pos _ _ (by simp [eqK, heq])]
        omega
      · rw [List.countP_cons_of_pos _ _ (by simpa using hle),
          List.countP_cons_of_pos _ _ (by simp [gtK, hle, heq]),
          List.countP_cons_of_neg _ _ (by simp [eqK, heq])]
        omega
    · have heq : ¬ x.1 = k₀ := fun hc => hle (hc ▸ kle_refl _)
      rw [List.countP_cons_of_neg _ _ (by simpa using hle),
        List.countP_cons_of_neg _ _ (by simp [gtK, hle]),
        List.countP_cons_of_neg _ _ (by simp [eqK, heq])]
      exact ih

/-- Dropping a single entry that is dominated by at least `K` entries of the
part of the input that precedes it does not change the first `K` entries of
the sort. -/
theorem take_sortDesc_drop_middle (K : ℕ) (P Q : List Entry) (d : Entry)
    (h : K ≤ (P.filter (fun p => kle d.1 p.1)).length) :
    (sortDesc (P ++ d :: Q)).take K = (sortDesc (P ++ Q)).take K := by
  set k₀ := d.1 with hk₀
  set O := sortDesc (P ++ Q) with hO
  have hOs : DescSorted O := sortDesc_sorted _
  have hpart := sorted_partition k₀ hOs
  set Gt := O.filter (gtK k₀) with hGt
  set Lt := O.filter (ltK k₀) with hLt
  set Pe := P.filter (eqK k₀) with hPe
  set Qe := Q.filter (eqK k₀) with hQe
  have hEq : O.filter (eqK k₀) = Pe ++ Qe := by
    rw [hPe, hQe]
    show O.filter (fun p => decide (p.1 = k₀)) = _
    rw [hO, filter_sortDesc, List.filter_append]
    rfl
  have hmemGt : ∀ z ∈ Gt, kle k₀ z.1 = true ∧ ¬ z.1 = k₀ := by
    intro z hz
    have hf := List.of_mem_filter hz
    simpa [gtK] using hf
  have hmemLt : ∀ z ∈ Lt, ¬ kle k₀ z.1 = true := by
    intro z hz
    have hf := List.of_mem_filter hz
    simpa [ltK] using hf
  have hmemPe : ∀ z ∈ Pe, z.1 = k₀ := by
    intro z hz
    have hf := List.of_mem_filter hz
    simpa [eqK] using hf
  have hmemQe : ∀ z ∈ Qe, z.1 = k₀ := by
    intro z hz
    have hf := List.of_mem_filter hz
    simpa [eqK] using hf
  have hmemMid : ∀ z ∈ Pe ++ d :: Qe, z.1 = k₀ := by
    intro z hz
    rcases List.mem_append.mp hz with hz | hz
    · exact hmemPe z hz
    · rcases List.mem_cons.mp hz with hz | hz
      · rw [hz]
      · exact hmemQe z hz
  -- the candidate stable-sorted form of `P ++ d :: Q`
  have hCs : DescSorted (Gt ++ (Pe ++ d :: Qe) ++ Lt) := by
    rw [List.append_assoc]
    refine List.pairwise_append.mpr ⟨?_, ?_, ?_⟩
    · exact hOs.sublist (List.filter_sublist O)
    · refine List.pairwise_append.mpr ⟨?_, ?_, ?_⟩
      · refine List.pairwise_of_forall_mem_list ?_
        intro a ha b hb
        rw [hmemMid a ha, hmemMid b hb]
        exact kle_refl _
      · exact hOs.sublist (List.filter_sublist O)
      · intro a ha b hb
        rw [hmemMid a ha]
        exact kle_of_not_kle (hmemLt b hb)
    · intro a ha b hb
      have hga := hmemGt a ha
      rcases List.mem_append.mp hb with hb | hb
      · rw [hmemMid b hb]
        exact hga.1
      · exact kle_trans (kle_of_not_kle (hmemLt b hb)) hga.1
  have hCf : ∀ k, (Gt ++ (Pe ++ d :: Qe) ++ Lt).filter (fun p => decide (p.1 = k)) =
      (P ++ d :: Q).filter (fun p => decide (p.1 = k)) := by
    intro k
    by_cases hk : k = k₀
    · subst hk
      have h₁ : Gt.filter (fun p => decide (p.1 = k₀)) = [] :=
        List.filter_eq_nil_iff.mpr (fun z hz => by simpa using (hmemGt z hz).2)
      have h₂ : Lt.filter (fun p => decide (p.1 = k₀)) = [] :=
        List.filter_eq_nil_iff.mpr (fun z hz => by
          simpa using fun hc => (hmemLt z hz) (by rw [hc]; exact kle_refl _))
      have h₃ : Pe.filter (fun p => decide (p.1 = k₀)) = Pe :=
        List.filter_eq_self.mpr (fun z hz => by simpa using hmemPe z hz)
      have h₄ : Qe.filter (fun p => decide (p.1 = k₀)) = Qe :=
        List.filter_eq_self.mpr (fun z hz => by simpa using hmemQe z hz)
      have hd : decide (d.1 = k₀) = true := by simp [hk₀]
      rw [List.filter_append, List.filter_append, List.filter_append,
        List.filter_cons_of_pos (by exact hd), List.filter_append,
        List.filter_cons_of_pos (by exact hd),
        h₁, h₂, h₃, h₄]
      have hPf : P.filter (fun p => decide (p.1 = k₀)) = Pe := rfl
      have hQf : Q.filter (fun p => decide (p.1 = k₀)) = Qe := rfl
      rw [hPf, hQf]
      simp
    · have hne : ¬ decide (d.1 = k) = true := by
        simp only [decide_eq_true_eq]
        intro hc
        exact hk (hc.symm.trans hk₀.symm)
      have h₃ : Pe.filter (fun p => decide (p.1 = k)) = [] :=
        List.filter_eq_nil_iff.mpr (fun z hz => by
          simpa using fun hc => hk (hc.symm.trans (hmemPe z hz)))
      have h₄ : Qe.filter (fun p => decide (p.1 = k)) = [] :=
        List.filter_eq_nil_iff.mpr (fun z hz => by
          simpa using fun hc => hk (hc.symm.trans (hmemQe z hz)))
      have hEqn : (Pe ++ Qe).filter (fun p => decide (p.1 = k)) = [] := by
        rw [List.filter_append, h₃, h₄]
        rfl
      have hsplit : O.filter (fun p => decide (p.1 = k)) =
          Gt.filter (fun p => decide (p.1 = k)) ++ Lt.filter (fun p => decide (p.1 = k)) := by
        conv_lhs => rw [hpart]
        rw [List.filter_append, List.filter_append, hEq, hEqn]
        simp
      rw [List.filter_append, List.filter_append, List.filter_append,
        List.filter_cons_of_neg (by exact hne), List.filter_append,
        List.filter_cons_of_neg (by exact hne),
        h₃, h₄]
      have hPQ : P.filter (fun p => decide (p.1 = k)) ++ Q.filter (fun p => decide (p.1 = k)) =
          O.filter (fun p => decide (p.1 = k)) := by
        rw [hO, filter_sortDesc, List.filter_append]
      simp only [List.nil_append, List.append_nil]
      rw [hPQ, hsplit]
  have hC : sortDesc (P ++ d :: Q) = Gt ++ (Pe ++ d :: Qe) ++ Lt :=
    eq_of_sorted_of_filter_eq (sortDesc_sorted _) hCs
      (fun k => by rw [filter_sortDesc]; exact (hCf k).symm)
  -- at least K entries precede the dropped entry in both sorted lists
  have hlen : K ≤ (Gt ++ Pe).length := by
    have h₁ : (P.filter (fun p => kle k₀ p.1)).length = P.countP (fun p => kle k₀ p.1) :=
      (List.countP_eq_length_filter _ _).symm
    have h₂ := countP_ge_eq_gt_add_eq k₀ P
    have h₃ : P.countP (gtK k₀) ≤ Gt.length := by
      have hpc : O.countP (gtK k₀) = (P ++ Q).countP (gtK k₀) :=
        (sortDesc_perm (P ++ Q)).countP_eq (gtK k₀)
      rw [hGt, ← List.countP_eq_length_filter, hpc, List.countP_append]
      omega
    have h₄ : Pe.length = P.countP (eqK k₀) := by
      rw [hPe, ← List.countP_eq_length_filter]
    rw [List.length_append]
    rw [h₁, h₂] at h
    omega
  have htake₁ : (sortDesc (P ++ d :: Q)).take K = (Gt ++ Pe).take K := by
    rw [hC]
    have hsp : Gt ++ (Pe ++ d :: Qe) ++ Lt = (Gt ++ Pe) ++ (d :: Qe ++ Lt) := by
      simp [List.append_assoc]
    rw [hsp, List.take_append_of_le_length hlen]
  have htake₂ : O.take K = (Gt ++ Pe).take K := by
    conv_lhs => rw [hpart]
    have hsp : Gt ++ O.filter (eqK k₀) ++ Lt = (Gt ++ Pe) ++ (Qe ++ Lt) := by
      rw [hEq]
      simp [List.append_assoc]
    rw [hsp, List.take_append_of_le_length hlen]
  rw [htake₁, htake₂]

/-- Dropping a block of entries, each dominated by at least `K` entries of
`P`, does not change the first `K` entries of the sort. -/
theorem take_sortDesc_drop_many (K : ℕ) (P Q : List Entry) :
    ∀ D : List Entry, (∀ d ∈ D, K ≤ (P.filter (fun p => kle d.1 p.1)).length) →
      (sortDesc (P ++ D ++ Q)).take K = (sortDesc (P ++ Q)).take K := by
  intro D
  induction D with
  | nil => intro _; simp
  | cons d D ih =>
    intro hD
    have h1 : P ++ (d :: D) ++ Q = P ++ d :: (D ++ Q) := by simp
    rw [h1, take_sortDesc_drop_middle K P (D ++ Q) d (hD d (List.mem_cons_self d D)),
      ← List.append_assoc]
    exact ih (fun z hz => hD z (List.mem_cons_of_mem d hz))

/-- Replacing the left part of an append by its own top `K` does not change
the first `K` entries of the sort: this is the left absorption law of the
streaming top-K merge. -/
theorem take_sortDesc_take_left (K : ℕ) (X Y : List Entry) :
    (sortDesc ((sortDesc X).take K ++ Y)).take K = (sortDesc (X ++ Y)).take K := by
  by_cases hlen : X.length ≤ K
  · have hl : (sortDesc X).length ≤ K := by rw [sortDesc_length]; exact hlen
    rw [List.take_of_length_le hl, sortDesc_sortDesc_append]
  · have hS : sortDesc X = (sortDesc X).take K ++ (sortDesc X).drop K :=
      (List.take_append_drop K (sortDesc X)).symm
    have hcross : ∀ a ∈ (sortDesc X).take K, ∀ d ∈ (sortDesc X).drop K,
        kle d.1 a.1 = true := by
      have hs := sortDesc_sorted X
      rw [hS] at hs
      exact fun a ha d hd => (List.pairwise_append.mp hs).2.2 a ha d hd
    have hlenA : ((sortDesc X).take K).length = K := by
      rw [List.length_take, sortDesc_length]
      omega
    have hD : ∀ d ∈ (sortDesc X).drop K,
        K ≤ (((sortDesc X).take K).filter (fun p => kle d.1 p.1)).length := by
      intro d hd
      rw [List.filter_eq_self.mpr (fun a ha => hcross a ha d hd), hlenA]
    have h1 : sortDesc (X ++ Y) = sortDesc (sortDesc X ++ Y) :=
      (sortDesc_sortDesc_append X Y).symm
    rw [h1]
    conv_rhs => rw [hS, List.append_assoc, ← List.append_assoc]
    exact (take_sortDesc_drop_many K ((sortDesc X).take K) Y ((sortDesc X).drop K) hD).symm

/-- Replacing the right part of an append by its own top `K` does not change
the first `K` entries of the sort: this is the right absorption law of the
streaming top-K merge. -/
theorem take_sortDesc_take_right (K : ℕ) (X Y : List Entry) :
    (sortDesc (X ++ (sortDesc Y).take K)).take K = (sortDesc (X ++ Y)).take K := by
  by_cases hlen : Y.length ≤ K
  · have hl : (sortDesc Y).length ≤ K := by rw [sortDesc_length]; exact hlen
    rw [List.take_of_length_le hl, sortDesc_append_sortDesc]
  · have hS : sortDesc Y = (sortDesc Y).take K ++ (sortDesc Y).drop K :=
      (List.take_append_drop K (sortDesc Y)).symm
    have hcross : ∀ a ∈ (sortDesc Y).take K, ∀ d ∈ (sortDesc Y).drop K,
        kle d.1 a.1 = true := by
      have hs := sortDesc_sorted Y
      rw [hS] at hs
      exact fun a ha d hd => (List.pairwise_append.mp hs).2.2 a ha d hd
    have hlenB : ((sortDesc Y).take K).length = K := by
      rw [List.length_take, sortDesc_length]
      omega
    have hD : ∀ d ∈ (sortDesc Y).drop K,
        K ≤ ((X ++ (sortDesc Y).take K).filter (fun p => kle d.1 p.1)).length := by
      intro d hd
      rw [List.filter_append, List.length_append,
        List.filter_eq_self.mpr (fun a ha => hcross a ha d hd), hlenB]
      omega
    have h1 : sortDesc (X ++ Y) = sortDesc (X ++ sortDesc Y) :=
      (sortDesc_append_sortDesc X Y).symm
    rw [h1]
    conv_rhs => rw [hS, ← List.append_assoc]
    have h3 := take_sortDesc_drop_many K (X ++ (sortDesc Y).take K) []
      ((sortDesc Y).drop K) hD
    simp only [List.append_nil] at h3
    exact h3.symm

/-- An entry carrying a real (non-sentinel) score. -/
def realK (p : Entry) : Bool := p.1.isSome

theorem kle_none (x : Option ℤ) : kle none x = true := rfl

/-- The sort puts all real-score entries (stably sorted) before all sentinel
entries (kept in their input order). -/
theorem sortDesc_reals_split (l : List Entry) :
    sortDesc l = sortDesc (l.filter realK) ++ l.filter (fun p => !(realK p)) := by
  have hnone : ∀ z ∈ l.filter (fun p => !(realK p)), z.1 = none := by
    intro z hz
    have hf := List.of_mem_filter hz
    cases hz1 : z.1 with
    | none => rfl
    | some v =>
      exfalso
      simp [realK, hz1] at hf
  refine (eq_of_sorted_of_filter_eq (sortDesc_sorted l) ?_ ?_)
  · refine List.pairwise_append.mpr ⟨sortDesc_sorted _, ?_, ?_⟩
    · refine List.pairwise_of_forall_mem_list ?_
      intro a ha b hb
      rw [hnone b hb]
      exact kle_none _
    · intro a _ b hb
      rw [hnone b hb]
      exact kle_none _
  · intro k
    cases k with
    | none =>
      have h₁ : (sortDesc (l.filter realK)).filter (fun p => decide (p.1 = none)) = [] := by
        rw [filter_sortDesc]
        refine List.filter_eq_nil_iff.mpr (fun z hz => ?_)
        have hf := List.of_mem_filter hz
        cases hz1 : z.1 with
        | none => rw [realK, hz1] at hf; simp at hf
        | some v => simp [hz1]
      have h₂ : (l.filter (fun p => !(realK p))).filter (fun p => decide (p.1 = none)) =
          l.filter (fun p => !(realK p)) :=
        List.filter_eq_self.mpr (fun z hz => by simp [hnone z hz])
      rw [filter_sortDesc, List.filter_append, h₁, h₂, List.nil_append]
      refine List.filter_congr (fun p _ => ?_)
      cases hp : p.1 <;> simp [realK, hp]
    | some v =>
      have h₂ : (l.filter (fun p => !(realK p))).filter (fun p => decide (p.1 = some v)) =
          [] :=
        List.filter_eq_nil_iff.mpr (fun z hz => by simp [hnone z hz])
      rw [filter_sortDesc, List.filter_append, h₂, List.append_nil, filter_sortDesc,
        List.filter_filter]
      refine List.filter_congr (fun p _ => ?_)
      cases hp : p.1 <;> simp [realK, hp]

/-- When at least `K` real entries are present, the first `K` entries of the
sort are the first `K` entries of the sort of the real entries alone. -/
theorem take_sortDesc_eq_reals (K : ℕ) (l : List Entry)
    (h : K ≤ (l.filter realK).length) :
    (sortDesc l).take K = (sortDesc (l.filter realK)).take K := by
  rw [sortDesc_reals_split,
    List.take_append_of_le_length (by rw [sortDesc_length]; exact h)]

/-!
## The streaming top-K ranker

Embedding of `rank` (`src/project/utils/score.py`, lines 58-157).  A batch is
the list of its scored (entity, score, label) triples in encounter order; the
stream is the list of batches yielded by the loader.  The global registry
(`gbl_uid`, line 77) is built from the full data set held by the loader,
which is passed separately (`data`) from the iterated batches, exactly as in
the code.  Buffers are per-entity rows of (score, label) entries; the pair
modelling is justified because the code always permutes `scr_buf`/`lbl_buf`
and `scr_tmp`/`lbl_tmp` by one shared index tensor.  The per-entity view of
the batch-local scatter (lines 115-131) is validated separately by the
index-level model further below (see `srcIdxModel`).  `fill` models the
uninitialized contents of `torch.empty` for `lbl_buf` (line 84) and `pad`
those of `lbl_tmp` (line 123).
-/

/-- One scored triple: (entity id, predicted score, relevance label). -/
abbrev Triple := ℕ × ℤ × ℤ

/-- A batch of scored triples as yielded by the loader. -/
abbrev Batch := List Triple

/-- The (score, label) pairs of entity `e` in a batch, in encounter order:
the contents scattered into the temporary row of `e` (lines 126-131). -/
def itemsOf (b : Batch) (e : ℕ) : List (ℤ × ℤ) :=
  (b.filter (fun t => decide (t.1 = e))).map (fun t => t.2)

/-- `uid_cnt.max().item()` (line 117): the largest per-entity group size. -/
def maxCount (b : Batch) : ℕ :=
  ((b.map (fun t => t.1)).map (fun e => (b.map (fun t => t.1)).count e)).foldr max 0

/-- `col_cnt = max(at_k, uid_cnt.max().item())` (line 117). -/
def colCnt (K : ℕ) (b : Batch) : ℕ := max K (maxCount b)

/-- Lift real items into buffer entries. -/
def liftItems (l : List (ℤ × ℤ)) : List Entry :=
  l.map (fun p => (some p.1, p.2))

/-- The temporary row of entity `e` for one batch: its scattered items
followed by the `-inf`-score slots that were never written, whose labels
keep the uninitialized `torch.empty` contents (`pad`), lines 119-131. -/
def tmpRow (pad : ℤ) (K : ℕ) (b : Batch) (e : ℕ) : List Entry :=
  liftItems (itemsOf b e) ++
    List.replicate (colCnt K b - (itemsOf b e).length) ((none : Option ℤ), pad)

/-- The batch-local top-K of entity `e` (lines 134-135), determinized as the
first `K` entries of the stable descending sort of the temporary row. -/
def batchTop (pad : ℤ) (K : ℕ) (b : Batch) (e : ℕ) : List Entry :=
  (sortDesc (tmpRow pad K b e)).take K

/-- The mutable state of `rank`: the merged score/label rows and the
positive-count accumulator, both indexed by entity id. -/
structure RankState where
  scrlbl : ℕ → List Entry
  pos : ℕ → ℤ

/-- The initial 2K-wide row of an entity: all scores are the `-inf` sentinel
(`torch.full`, line 80) and the labels are the uninitialized contents of
`torch.empty` (line 84), modelled by the arbitrary `fill`. -/
def initRow (fill : ℕ → ℕ → ℤ) (K : ℕ) (e : ℕ) : List Entry :=
  (List.range (2 * K)).map (fun c => ((none : Option ℤ), fill e c))

/-- The state before the first batch (lines 80-85). -/
def initState (fill : ℕ → ℕ → ℤ) (K : ℕ) : RankState :=
  { scrlbl := fun e => initRow fill K e, pos := fun _ => 0 }

/-- Whether entity `e` is in the batch's active set tracked by `gbl_msk`
(lines 109-113): present in the batch and in the registry. -/
def activeIn (data : List ℕ) (b : Batch) (e : ℕ) : Prop :=
  e ∈ b.map (fun t => t.1) ∧ e ∈ data

instance (data : List ℕ) (b : Batch) (e : ℕ) : Decidable (activeIn data b e) :=
  inferInstanceAs (Decidable (_ ∧ _))

/-- Processing one batch (lines 91-154): active entities get the batch-local
top-K written into the second half of their row (lines 138-139), then every
row of the buffer is re-sorted by descending score (lines 141-144), and the
positive-count accumulator of active entities receives the sum of all labels
of the batch (lines 147-154). -/
def stepBatch (pad : ℤ) (data : List ℕ) (K : ℕ) (s : RankState) (b : Batch) :
    RankState where
  scrlbl := fun e =>
    sortDesc (if activeIn data b e then
      (s.scrlbl e).take K ++ batchTop pad K b e
    else s.scrlbl e)
  pos := fun e =>
    s.pos e + (if activeIn data b e then ((itemsOf b e).map (fun p => p.2)).sum else 0)

/-- The state after folding the whole stream of batches. -/
def rankRun (fill : ℕ → ℕ → ℤ) (pad : ℤ) (data : List ℕ) (K : ℕ)
    (bs : List Batch) : RankState :=
  bs.foldl (stepBatch pad data K) (initState fill K)

/-- The label matrix row returned by `rank` for entity `e` (line 157): the
full label buffer row, of width 2K. -/
def rankLabels (fill : ℕ → ℕ → ℤ) (pad : ℤ) (data : List ℕ) (K : ℕ)
    (bs : List Batch) (e : ℕ) : List ℤ :=
  ((rankRun fill pad data K bs).scrlbl e).map (fun p => p.2)

/-- The positive-count vector entry returned by `rank` for entity `e`. -/
def rankPos (fill : ℕ → ℕ → ℤ) (pad : ℤ) (data : List ℕ) (K : ℕ)
    (bs : List Batch) (e : ℕ) : ℤ :=
  (rankRun fill pad data K bs).pos e

/-- All items of entity `e` over the whole stream, in stream order. -/
def allItems (bs : List Batch) (e : ℕ) : List (ℤ × ℤ) :=
  itemsOf bs.flatten e

/-- The reference value: the labels of the `K` highest-scored items of the
list, sorted by descending score (ties determinized by encounter order). -/
def topKRef (K : ℕ) (items : List (ℤ × ℤ)) : List ℤ :=
  ((sortDesc (liftItems items)).take K).map (fun p => p.2)

/-- The merge trace of entity `e`: the initial row followed by every
temporary row the entity contributed to the buffer.  The first `K` entries
of the buffer row always coincide with the first `K` entries of the sort of
this trace (see `rankRun_invariant`). -/
def mergeTrace (fill : ℕ → ℕ → ℤ) (pad : ℤ) (data : List ℕ) (K : ℕ)
    (bs : List Batch) (e : ℕ) : List Entry :=
  initRow fill K e ++
    (bs.map (fun b => if activeIn data b e then tmpRow pad K b e else [])).flatten

theorem itemsOf_append (b₁ b₂ : Batch) (e : ℕ) :
    itemsOf (b₁ ++ b₂) e = itemsOf b₁ e ++ itemsOf b₂ e := by
  simp [itemsOf, List.filter_append]

theorem itemsOf_eq_nil_of_not_mem {b : Batch} {e : ℕ}
    (h : e ∉ b.map (fun t => t.1)) : itemsOf b e = [] := by
  rw [itemsOf, List.filter_eq_nil_iff.mpr, List.map_nil]
  intro t ht
  simp only [decide_eq_true_eq]
  intro he
  exact h (List.mem_map.mpr ⟨t, ht, he⟩)

theorem allItems_append (bs : List Batch) (b : Batch) (e : ℕ) :
    allItems (bs ++ [b]) e = allItems bs e ++ itemsOf b e := by
  simp [allItems, itemsOf_append]

theorem le_foldr_max {l : List ℕ} {x : ℕ} (h : x ∈ l) : x ≤ l.foldr max 0 := by
  induction l with
  | nil => cases h
  | cons y ys ih =>
    rcases List.mem_cons.mp h with h | h
    · subst h
      exact le_max_left _ _
    · exact le_trans (ih h) (le_max_right _ _)

theorem length_itemsOf (b : Batch) (e : ℕ) :
    (itemsOf b e).length = (b.map (fun t => t.1)).count e := by
  rw [itemsOf, List.length_map, ← List.countP_eq_length_filter]
  induction b with
  | nil => rfl
  | cons t ts ih =>
    by_cases h : t.1 = e
    · rw [List.countP_cons_of_pos _ _ (by simpa using h), List.map_cons, List.count_cons, ih]
      simp [h]
    · rw [List.countP_cons_of_neg _ _ (by simpa using h), List.map_cons, List.count_cons, ih]
      simp [h]

theorem length_itemsOf_le_maxCount (b : Batch) (e : ℕ) :
    (itemsOf b e).length ≤ maxCount b := by
  by_cases h : e ∈ b.map (fun t => t.1)
  · rw [length_itemsOf]
    exact le_foldr_max (List.mem_map.mpr ⟨e, h, rfl⟩)
  · rw [itemsOf_eq_nil_of_not_mem h]
    exact Nat.zero_le _

theorem tmpRow_length (pad : ℤ) (K : ℕ) (b : Batch) (e : ℕ) :
    (tmpRow pad K b e).length = colCnt K b := by
  have h : (itemsOf b e).length ≤ colCnt K b :=
    le_trans (length_itemsOf_le_maxCount b e) (le_max_right _ _)
  rw [tmpRow, List.length_append, List.length_replicate, liftItems, List.length_map]
  omega

theorem batchTop_length (pad : ℤ) (K : ℕ) (b : Batch) (e : ℕ) :
    (batchTop pad K b e).length = K := by
  rw [batchTop, List.length_take, sortDesc_length, tmpRow_length]
  have h : K ≤ colCnt K b := le_max_left _ _
  omega

theorem initRow_key_none {fill : ℕ → ℕ → ℤ} {K : ℕ} {e : ℕ} :
    ∀ z ∈ initRow fill K e, z.1 = (none : Option ℤ) := by
  intro z hz
  rcases List.mem_map.mp hz with ⟨c, _, hc⟩
  rw [← hc]

theorem initRow_sorted (fill : ℕ → ℕ → ℤ) (K : ℕ) (e : ℕ) :
    DescSorted (initRow fill K e) := by
  refine List.pairwise_of_forall_mem_list ?_
  intro a _ b hb
  rw [initRow_key_none b hb]
  exact kle_none _

theorem initRow_length (fill : ℕ → ℕ → ℤ) (K : ℕ) (e : ℕ) :
    (initRow fill K e).length = 2 * K := by
  rw [initRow, List.length_map, List.length_range]

theorem rankRun_append (fill : ℕ → ℕ → ℤ) (pad : ℤ) (data : List ℕ) (K : ℕ)
    (bs : List Batch) (b : Batch) :
    rankRun fill pad data K (bs ++ [b]) =
      stepBatch pad data K (rankRun fill pad data K bs) b := by
  rw [rankRun, rankRun, List.foldl_append]
  rfl

theorem mergeTrace_append (fill : ℕ → ℕ → ℤ) (pad : ℤ) (data : List ℕ) (K : ℕ)
    (bs : List Batch) (b : Batch) (e : ℕ) :
    mergeTrace fill pad data K (bs ++ [b]) e =
      mergeTrace fill pad data K bs e ++
        (if activeIn data b e then tmpRow pad K b e else []) := by
  rw [mergeTrace, mergeTrace, List.map_append, List.flatten_append]
  simp [List.append_assoc]

/-- The buffer invariant: every row stays descending-sorted and 2K wide, and
its first `K` entries are the first `K` entries of the sort of the entity's
merge trace. -/
theorem rankRun_invariant (fill : ℕ → ℕ → ℤ) (pad : ℤ) (data : List ℕ) (K : ℕ)
    (bs : List Batch) (e : ℕ) :
    DescSorted ((rankRun fill pad data K bs).scrlbl e) ∧
    ((rankRun fill pad data K bs).scrlbl e).length = 2 * K ∧
    ((rankRun fill pad data K bs).scrlbl e).take K =
      (sortDesc (mergeTrace fill pad data K bs e)).take K := by
  induction bs using List.reverseRecOn with
  | nil =>
    refine ⟨initRow_sorted fill K e, initRow_length fill K e, ?_⟩
    show (initRow fill K e).take K = (sortDesc (mergeTrace fill pad data K [] e)).take K
    rw [mergeTrace]
    simp only [List.map_nil, List.flatten_nil, List.append_nil]
    rw [sortDesc_eq_self (initRow_sorted fill K e)]
  | append_singleton bs b ih =>
    rcases ih with ⟨ihs, ihl, iht⟩
    rw [rankRun_append, mergeTrace_append]
    have hrow0 : (stepBatch pad data K (rankRun fill pad data K bs) b).scrlbl e =
        sortDesc (if activeIn data b e then
          ((rankRun fill pad data K bs).scrlbl e).take K ++ batchTop pad K b e
        else (rankRun fill pad data K bs).scrlbl e) := rfl
    by_cases hact : activeIn data b e
    · have hrow : (stepBatch pad data K (rankRun fill pad data K bs) b).scrlbl e =
          sortDesc (((rankRun fill pad data K bs).scrlbl e).take K ++ batchTop pad K b e) := by
        rw [hrow0, if_pos hact]
      refine ⟨hrow ▸ sortDesc_sorted _, ?_, ?_⟩
      · rw [hrow, sortDesc_length, List.length_append, List.length_take, ihl,
          batchTop_length]
        omega
      · rw [hrow, if_pos hact, iht, take_sortDesc_take_left, batchTop,
          take_sortDesc_take_right]
    · have hrow : (stepBatch pad data K (rankRun fill pad data K bs) b).scrlbl e =
          (rankRun fill pad data K bs).scrlbl e := by
        rw [hrow0, if_neg hact, sortDesc_eq_self ihs]
      rw [hrow, if_neg hact, List.append_nil]
      exact ⟨ihs, ihl, iht⟩

theorem tmpRow_filter_real (pad : ℤ) (K : ℕ) (b : Batch) (e : ℕ) :
    (tmpRow pad K b e).filter realK = liftItems (itemsOf b e) := by
  rw [tmpRow, List.filter_append]
  have h₁ : (liftItems (itemsOf b e)).filter realK = liftItems (itemsOf b e) := by
    refine List.filter_eq_self.mpr (fun z hz => ?_)
    rcases List.mem_map.mp hz with ⟨p, _, hp⟩
    rw [← hp]
    rfl
  have h₂ : (List.replicate (colCnt K b - (itemsOf b e).length)
      ((none : Option ℤ), pad)).filter realK = [] := by
    refine List.filter_eq_nil_iff.mpr (fun z hz => ?_)
    rw [List.eq_of_mem_replicate hz]
    simp [realK]
  rw [h₁, h₂, List.append_nil]

theorem initRow_filter_real (fill : ℕ → ℕ → ℤ) (K : ℕ) (e : ℕ) :
    (initRow fill K e).filter realK = [] := by
  refine List.filter_eq_nil_iff.mpr (fun z hz => ?_)
  rw [realK, initRow_key_none z hz]
  simp

/-- Under the registry precondition, the real entries of the merge trace are
exactly the entity's items over the whole stream, in stream order. -/
theorem mergeTrace_filter_real (fill : ℕ → ℕ → ℤ) (pad : ℤ) (data : List ℕ)
    (K : ℕ) (bs : List Batch) (e : ℕ)
    (htr : ∀ b ∈ bs, ∀ t ∈ b, t.1 ∈ data) :
    (mergeTrace fill pad data K bs e).filter realK = liftItems (allItems bs e) := by
  induction bs using List.reverseRecOn with
  | nil =>
    rw [mergeTrace]
    simp only [List.map_nil, List.flatten_nil, List.append_nil]
    rw [initRow_filter_real]
    rfl
  | append_singleton bs b ih =>
    have htr' : ∀ b' ∈ bs, ∀ t ∈ b', t.1 ∈ data := by
      intro b' hb' t ht
      exact htr b' (List.mem_append.mpr (Or.inl hb')) t ht
    rw [mergeTrace_append, List.filter_append, ih htr', allItems_append]
    simp only [liftItems, List.map_append]
    by_cases hact : activeIn data b e
    · rw [if_pos hact, tmpRow_filter_real]
      rfl
    · rw [if_neg hact]
      have hnil : itemsOf b e = [] := by
        by_cases hmem : e ∈ b.map (fun t => t.1)
        · exfalso
          rcases List.mem_map.mp hmem with ⟨t, ht, hte⟩
          exact hact ⟨hmem, hte ▸ htr b (List.mem_append.mpr (Or.inr (List.mem_singleton_self b))) t ht⟩
        · exact itemsOf_eq_nil_of_not_mem hmem
      rw [hnil]
      rfl

/-- Main streaming lemma: when entity `e` has at least `K` items over the
whole stream, the first `K` entries of its final buffer row are the first
`K` entries of the descending sort of all of its items. -/
theorem rankRun_takeK (fill : ℕ → ℕ → ℤ) (pad : ℤ) (data : List ℕ) (K : ℕ)
    (bs : List Batch) (e : ℕ)
    (htr : ∀ b ∈ bs, ∀ t ∈ b, t.1 ∈ data)
    (hlen : K ≤ (allItems bs e).length) :
    ((rankRun fill pad data K bs).scrlbl e).take K =
      (sortDesc (liftItems (allItems bs e))).take K := by
  have hreal := mergeTrace_filter_real fill pad data K bs e htr
  have hlen' : K ≤ ((mergeTrace fill pad data K bs e).filter realK).length := by
    rw [hreal, liftItems, List.length_map]
    exact hlen
  rw [(rankRun_invariant fill pad data K bs e).2.2,
    take_sortDesc_eq_reals K _ hlen', hreal]

/-- The `take K` of the returned label row, for entities with at least `K`
items: exactly the reference top-K labels of the whole stream. -/
theorem rankLabels_takeK (fill : ℕ → ℕ → ℤ) (pad : ℤ) (data : List ℕ) (K : ℕ)
    (bs : List Batch) (e : ℕ)
    (htr : ∀ b ∈ bs, ∀ t ∈ b, t.1 ∈ data)
    (hlen : K ≤ (allItems bs e).length) :
    (rankLabels fill pad data K bs e).take K = topKRef K (allItems bs e) := by
  rw [rankLabels, ← List.map_take, rankRun_takeK fill pad data K bs e htr hlen, topKRef]

theorem stepBatch_pos (pad : ℤ) (data : List ℕ) (K : ℕ) (s : RankState)
    (b : Batch) (e : ℕ) :
    (stepBatch pad data K s b).pos e =
      s.pos e + (if activeIn data b e then ((itemsOf b e).map (fun p => p.2)).sum else 0) :=
  rfl

theorem itemsOf_eq_nil_of_not_active {data : List ℕ} {b : Batch} {e : ℕ}
    (htr : ∀ t ∈ b, t.1 ∈ data) (hact : ¬ activeIn data b e) :
    itemsOf b e = [] := by
  by_cases hmem : e ∈ b.map (fun t => t.1)
  · exfalso
    rcases List.mem_map.mp hmem with ⟨t, ht, hte⟩
    exact hact ⟨hmem, hte ▸ htr t ht⟩
  · exact itemsOf_eq_nil_of_not_mem hmem

/-- The accumulator sums every label of every item of the entity over the
whole stream, not only the labels surviving into the top-K buffer. -/
theorem rankPos_eq_label_sum (fill : ℕ → ℕ → ℤ) (pad : ℤ) (data : List ℕ)
    (K : ℕ) (bs : List Batch) (e : ℕ)
    (htr : ∀ b ∈ bs, ∀ t ∈ b, t.1 ∈ data) :
    rankPos fill pad data K bs e = ((allItems bs e).map (fun p => p.2)).sum := by
  induction bs using List.reverseRecOn with
  | nil => rfl
  | append_singleton bs b ih =>
    have htr' : ∀ b' ∈ bs, ∀ t ∈ b', t.1 ∈ data := by
      intro b' hb' t ht
      exact htr b' (List.mem_append.mpr (Or.inl hb')) t ht
    have htrb : ∀ t ∈ b, t.1 ∈ data :=
      htr b (List.mem_append.mpr (Or.inr (List.mem_singleton_self b)))
    rw [rankPos, rankRun_append, stepBatch_pos, allItems_append, List.map_append,
      List.sum_append]
    rw [rankPos] at ih
    rw [ih htr']
    by_cases hact : activeIn data b e
    · rw [if_pos hact]
    · rw [if_neg hact, itemsOf_eq_nil_of_not_active htrb hact]
      simp

theorem label_sum_eq_count (l : List (ℤ × ℤ))
    (hbin : ∀ p ∈ l, p.2 = 0 ∨ p.2 = 1) :
    (l.map (fun p => p.2)).sum = ((l.filter (fun p => decide (p.2 = 1))).length : ℤ) := by
  induction l with
  | nil => rfl
  | cons p ps ih =>
    have ihs := ih (fun q hq => hbin q (List.mem_cons_of_mem _ hq))
    rcases hbin p (List.mem_cons_self p ps) with h0 | h1
    · rw [List.map_cons, List.sum_cons, h0,
        List.filter_cons_of_neg (by simp [h0]), ihs]
      ring
    · rw [List.map_cons, List.sum_cons, h1,
        List.filter_cons_of_pos (by simp [h1]), List.length_cons, ihs]
      push_cast
      ring

/-- Frame helper: a batch that does not contain entity `e` leaves both the
buffer row and the accumulator entry of `e` unchanged (the re-sort of its row
is the identity because the row is already sorted). -/
theorem rankRun_frame (fill : ℕ → ℕ → ℤ) (pad : ℤ) (data : List ℕ) (K : ℕ)
    (bs : List Batch) (b : Batch) (e : ℕ)
    (hb : e ∉ b.map (fun t => t.1)) :
    (rankRun fill pad data K (bs ++ [b])).scrlbl e =
        (rankRun fill pad data K bs).scrlbl e ∧
      (rankRun fill pad data K (bs ++ [b])).pos e =
        (rankRun fill pad data K bs).pos e := by
  have hact : ¬ activeIn data b e := fun h => hb h.1
  rw [rankRun_append]
  constructor
  · show sortDesc (if activeIn data b e then _ else _) = _
    rw [if_neg hact, sortDesc_eq_self (rankRun_invariant fill pad data K bs e).1]
  · rw [stepBatch_pos, if_neg hact, add_zero]

/-- An entity appearing in no batch keeps its initial row verbatim. -/
theorem rankRun_scrlbl_untouched (fill : ℕ → ℕ → ℤ) (pad : ℤ) (data : List ℕ)
    (K : ℕ) (bs : List Batch) (e : ℕ)
    (h : ∀ b ∈ bs, e ∉ b.map (fun t => t.1)) :
    (rankRun fill pad data K bs).scrlbl e = initRow fill K e := by
  induction bs using List.reverseRecOn with
  | nil => rfl
  | append_singleton bs b ih =>
    have ih' := ih (fun b' hb' => h b' (List.mem_append.mpr (Or.inl hb')))
    have hact : ¬ activeIn data b e :=
      fun hc => h b (List.mem_append.mpr (Or.inr (List.mem_singleton_self b))) hc.1
    rw [rankRun_append]
    show sortDesc (if activeIn data b e then _ else _) = _
    rw [if_neg hact, ih', sortDesc_eq_self (initRow_sorted fill K e)]

/-!
## Index-level model of the batch-local scatter

Model of lines 102-131 and 147-154 of `rank` at the level of the index
tensors themselves, validating the per-entity view used above.  `nid` is
`batch[src_node].n_id`; `si` is the batch's `src_idx` row of
`edge_label_index`; `srcIds` is `src_ids = n_id[src_idx]` (line 104);
`srcUid`/`uidCnt` are `src_uid, uid_cnt = src_ids.unique(return_counts=True)`
(line 106, sorted ascending); `colIdxM` is the concatenation of
`arange(cnt)` over `uid_cnt` (lines 126-128); `rowCntM` is
`gbl_msk.sum().item()` (line 116).  The code indexes the `row_cnt`-row
temporaries directly with `src_idx` (lines 130-131) and scatter-adds with
`src_idx` (lines 150-154), which is meaningful only under the unstated
precondition that `src_idx` is exactly the compact range `0..R-1` grouped in
ascending unique-id order (`groupedIdx`) with `n_id` ascending on the used
indices. -/

/-- `torch.unique` on a list of naturals: its distinct values in ascending
order. -/
def uniqueSorted (l : List ℕ) : List ℕ :=
  (List.range (l.foldr max 0 + 1)).filter (fun x => decide (x ∈ l))

/-- The compact grouped index pattern `[0,...,0,1,...,1,...,R-1,...]` with
group `r` repeated `counts[r]` times. -/
def groupedIdx (counts : List ℕ) : List ℕ :=
  ((List.range counts.length).map (fun r => List.replicate (counts.getD r 0) r)).flatten

/-- `src_ids = batch[src_node].n_id[src_idx]` (line 104). -/
def srcIdsM (nid si : List ℕ) : List ℕ := si.map (fun j => nid.getD j 0)

/-- `src_uid` (line 106). -/
def srcUidM (nid si : List ℕ) : List ℕ := uniqueSorted (srcIdsM nid si)

/-- `uid_cnt` (line 106), in `src_uid` order. -/
def uidCntM (nid si : List ℕ) : List ℕ :=
  (srcUidM nid si).map (fun u => (srcIdsM nid si).count u)

/-- `col_idx = cat([arange(cnt) for cnt in uid_cnt])` (lines 126-128). -/
def colIdxM (nid si : List ℕ) : List ℕ :=
  ((uidCntM nid si).map (fun c => List.range c)).flatten

/-- `row_cnt = gbl_msk.sum().item()` (line 116): the number of tracked ids
present in the batch. -/
def rowCntM (gblUid nid si : List ℕ) : ℕ :=
  (gblUid.filter (fun x => decide (x ∈ srcUidM nid si))).length

/-- `col_cnt = max(at_k, uid_cnt.max().item())` (line 117), stated on the
index model. -/
def colCntM (K : ℕ) (nid si : List ℕ) : ℕ :=
  max K ((uidCntM nid si).foldr max 0)

theorem mem_uniqueSorted {l : List ℕ} {x : ℕ} : x ∈ uniqueSorted l ↔ x ∈ l := by
  constructor
  · intro h
    have := List.of_mem_filter h
    simpa using this
  · intro h
    refine List.mem_filter.mpr ⟨?_, by simpa using h⟩
    rw [List.mem_range]
    exact Nat.lt_succ_of_le (le_foldr_max h)

theorem uniqueSorted_pairwise (l : List ℕ) :
    (uniqueSorted l).Pairwise (· < ·) :=
  (List.pairwise_lt_range _).sublist (List.filter_sublist _)

theorem eq_of_pairwise_lt_of_mem_iff :
    ∀ {l₁ l₂ : List ℕ}, l₁.Pairwise (· < ·) → l₂.Pairwise (· < ·) →
      (∀ x, x ∈ l₁ ↔ x ∈ l₂) → l₁ = l₂ := by
  intro l₁
  induction l₁ with
  | nil =>
    intro l₂ _ _ hm
    cases l₂ with
    | nil => rfl
    | cons y ys => exact absurd ((hm y).mpr (List.mem_cons_self y ys)) (by simp)
  | cons x xs ih =>
    intro l₂ h₁ h₂ hm
    cases l₂ with
    | nil => exact absurd ((hm x).mp (List.mem_cons_self x xs)) (by simp)
    | cons y ys =>
      have hxy : x = y := by
        rcases List.mem_cons.mp ((hm x).mp (List.mem_cons_self x xs)) with h | h
        · exact h
        · rcases List.mem_cons.mp ((hm y).mpr (List.mem_cons_self y ys)) with h' | h'
          · exact h'.symm
          · exact absurd ((List.pairwise_cons.mp h₂).1 x h)
              (by have := (List.pairwise_cons.mp h₁).1 y h'; omega)
      subst hxy
      have htails : ∀ z, z ∈ xs ↔ z ∈ ys := by
        intro z
        constructor
        · intro hz
          rcases List.mem_cons.mp ((hm z).mp (List.mem_cons_of_mem x hz)) with h | h
          · exact absurd ((List.pairwise_cons.mp h₁).1 z hz) (by omega)
          · exact h
        · intro hz
          rcases List.mem_cons.mp ((hm z).mpr (List.mem_cons_of_mem x hz)) with h | h
          · exact absurd ((List.pairwise_cons.mp h₂).1 z hz) (by omega)
          · exact h
      rw [ih (List.pairwise_cons.mp h₁).2 (List.pairwise_cons.mp h₂).2 htails]

theorem mem_groupedIdx {counts : List ℕ} {v : ℕ} (h : v ∈ groupedIdx counts) :
    v < counts.length ∧ 0 < counts.getD v 0 := by
  rcases List.mem_flatten.mp h with ⟨blk, hblk, hv⟩
  rcases List.mem_map.mp hblk with ⟨r, hr, hrep⟩
  have hvr : v = r := List.eq_of_mem_replicate (hrep ▸ hv)
  subst hvr
  refine ⟨List.mem_range.mp hr, ?_⟩
  by_contra hz
  push_neg at hz
  rw [Nat.le_zero.mp hz] at hrep
  rw [← hrep] at hv
  cases hv

theorem mem_groupedIdx_of_lt {counts : List ℕ} {r : ℕ}
    (hr : r < counts.length) (hc : 0 < counts.getD r 0) : r ∈ groupedIdx counts := by
  refine List.mem_flatten.mpr ⟨List.replicate (counts.getD r 0) r, ?_, ?_⟩
  · exact List.mem_map.mpr ⟨r, List.mem_range.mpr hr, rfl⟩
  · exact List.mem_replicate.mpr ⟨Nat.pos_iff_ne_zero.mp hc, rfl⟩

/-- Under the compactness and monotonicity precondition, the sorted unique
ids of the batch are exactly `n_id` applied to `0..R-1`. -/
theorem srcUidM_eq (nid counts : List ℕ) (si : List ℕ)
    (hsi : si = groupedIdx counts)
    (hcpos : ∀ c ∈ counts, 0 < c)
    (hmono : ∀ i j, i < j → j < counts.length → nid.getD i 0 < nid.getD j 0) :
    srcUidM nid si = (List.range counts.length).map (fun r => nid.getD r 0) := by
  have hcpos' : ∀ r < counts.length, 0 < counts.getD r 0 := by
    intro r hr
    rw [List.getD_eq_getElem counts 0 hr]
    exact hcpos _ (List.getElem_mem hr)
  refine eq_of_pairwise_lt_of_mem_iff (uniqueSorted_pairwise _) ?_ ?_
  · refine List.pairwise_map.mpr ?_
    refine (List.pairwise_lt_range _).imp_of_mem ?_
    intro a b _ hb hab
    exact hmono a b hab (List.mem_range.mp hb)
  · intro x
    rw [srcUidM, mem_uniqueSorted, srcIdsM]
    constructor
    · intro hx
      rcases List.mem_map.mp hx with ⟨j, hj, hjx⟩
      rw [hsi] at hj
      exact List.mem_map.mpr ⟨j, List.mem_range.mpr (mem_groupedIdx hj).1, hjx⟩
    · intro hx
      rcases List.mem_map.mp hx with ⟨r, hr, hrx⟩
      have hrR := List.mem_range.mp hr
      refine List.mem_map.mpr ⟨r, ?_, hrx⟩
      rw [hsi]
      exact mem_groupedIdx_of_lt hrR (hcpos' r hrR)

/-- Under the preconditions, the number of tracked batch entities equals the
number of groups. -/
theorem rowCntM_eq (nid counts gblUid : List ℕ) (si : List ℕ)
    (hsi : si = groupedIdx counts)
    (hcpos : ∀ c ∈ counts, 0 < c)
    (hmono : ∀ i j, i < j → j < counts.length → nid.getD i 0 < nid.getD j 0)
    (hsub : ∀ x ∈ srcUidM nid si, x ∈ gblUid)
    (hnod : gblUid.Nodup) :
    rowCntM gblUid nid si = counts.length := by
  have husnd : (srcUidM nid si).Nodup :=
    (uniqueSorted_pairwise _).imp (fun h => Nat.ne_of_lt h)
  have hfnd : (gblUid.filter (fun x => decide (x ∈ srcUidM nid si))).Nodup :=
    hnod.sublist (List.filter_sublist _)
  have hmem : ∀ a, a ∈ gblUid.filter (fun x => decide (x ∈ srcUidM nid si)) ↔
      a ∈ srcUidM nid si := by
    intro a
    rw [List.mem_filter]
    simp only [decide_eq_true_eq]
    exact ⟨fun h => h.2, fun h => ⟨hsub a h, h⟩⟩
  have hperm := (List.perm_ext_iff_of_nodup hfnd husnd).mpr hmem
  rw [rowCntM, hperm.length_eq, srcUidM_eq nid counts si hsi hcpos hmono,
    List.length_map, List.length_range]

/-- Alignment: under the preconditions every source index is in bounds for
the `row_cnt`-row temporaries and addresses the row of its own entity in
`src_uid` order. -/
theorem scatter_aligned (nid counts gblUid : List ℕ) (si : List ℕ)
    (hsi : si = groupedIdx counts)
    (hcpos : ∀ c ∈ counts, 0 < c)
    (hmono : ∀ i j, i < j → j < counts.length → nid.getD i 0 < nid.getD j 0)
    (hsub : ∀ x ∈ srcUidM nid si, x ∈ gblUid)
    (hnod : gblUid.Nodup) :
    ∀ v ∈ si, v < rowCntM gblUid nid si ∧
      (srcUidM nid si).getD v 0 = nid.getD v 0 := by
  intro v hv
  have hvR : v < counts.length := by
    rw [hsi] at hv
    exact (mem_groupedIdx hv).1
  refine ⟨?_, ?_⟩
  · rw [rowCntM_eq nid counts gblUid si hsi hcpos hmono hsub hnod]
    exact hvR
  · rw [srcUidM_eq nid counts si hsi hcpos hmono]
    have hlen : v < ((List.range counts.length).map (fun r => nid.getD r 0)).length := by
      rw [List.length_map, List.length_range]
      exact hvR
    rw [List.getD_eq_getElem _ 0 hlen, List.getElem_map, List.getElem_range]

/-- Every generated column index is in bounds for the temporaries' width. -/
theorem colIdxM_lt_colCntM (K : ℕ) (nid si : List ℕ) :
    ∀ c ∈ colIdxM nid si, c < colCntM K nid si := by
  intro c hc
  rcases List.mem_flatten.mp hc with ⟨blk, hblk, hcblk⟩
  rcases List.mem_map.mp hblk with ⟨cnt, hcnt, hrng⟩
  have hclt : c < cnt := List.mem_range.mp (hrng ▸ hcblk)
  have hle : cnt ≤ (uidCntM nid si).foldr max 0 := le_foldr_max hcnt
  rw [colCntM]
  omega

/-!
## Metric formulas

Embedding of `recall_score` (lines 17-19), `ndcg_coefs` (lines 22-26),
`ndcg_score` (lines 29-55) and the reducer stage of `composite`
(lines 160-171) over the reals, with `log2` as `Real.logb 2`.  A score
matrix is a function of (row, column); the `count` argument is the number of
columns inferred from `score.shape` on line 38.  The default-coefficient
path (`coefs is None`, lines 43-44) is the one exercised by `composite` and
the one embedded here.
-/

/-- `ndcg_coefs` (lines 22-26): the discount factor of rank `r` is
`log2(r + 2)`. -/
noncomputable def ndcg_coefs (r : ℕ) : ℝ := Real.logb 2 (r + 2)

/-- The `total` argument of `ndcg_score`: a Python `int` or a per-row
tensor, distinguished by the `type(total) == int` test on line 40. -/
inductive NdcgTotal where
  | int : ℤ → NdcgTotal
  | vec : (ℕ → ℤ) → NdcgTotal

/-- Lines 40-41: an integer `total` is replaced by
`torch.full([count], count)` — a constant vector all of whose entries are
`count`, the number of score columns; the integer's own value is discarded. -/
def ndcgTotalVec (count : ℕ) : NdcgTotal → (ℕ → ℤ)
  | NdcgTotal.int _ => fun _ => (count : ℤ)
  | NdcgTotal.vec v => v

/-- `ndcg_score` (lines 29-55), default coefficients: the discounted sum of
the row divided by the sum of the coefficients of the first
`min(total[i], count)` ranks — note the normalizer sums `log2(r+2)` itself,
not `1/log2(r+2)` (the boolean mask `terms` is multiplied by `coefs`). -/
noncomputable def ndcg_score (count : ℕ) (score : ℕ → ℕ → ℝ) (total : NdcgTotal)
    (i : ℕ) : ℝ :=
  (∑ r in Finset.range count, score i r / ndcg_coefs r) /
    (∑ r in Finset.range count,
      if (r : ℤ) < min (ndcgTotalVec count total i) (count : ℤ) then ndcg_coefs r else 0)

/-- The NDCG@K formula as written in the specification (section 4.2):
discounted sum over the K slots divided by the ideal discounted sum
`Σ 1/log2(r+2)` over the first `min(pos_counts[i], K)` ranks. -/
noncomputable def ndcg_spec (count : ℕ) (labels : ℕ → ℕ → ℝ) (total : ℕ → ℤ)
    (i : ℕ) : ℝ :=
  (∑ r in Finset.range count, labels i r / Real.logb 2 (r + 2)) /
    (∑ r in Finset.range (min (total i).toNat count), 1 / Real.logb 2 (r + 2))

/-- `recall_score` (lines 17-19): the row sum divided by the row's total,
with no guard for a zero total (a zero denominator yields the junk value of
real division here, standing for the non-finite float result). -/
noncomputable def recall_score (count : ℕ) (score : ℕ → ℕ → ℝ) (total : ℕ → ℤ)
    (i : ℕ) : ℝ :=
  (∑ r in Finset.range count, score i r) / (total i : ℝ)

/-- The reducer stage of `composite` (lines 167-171): apply every metric to
the label matrix and count vector and reduce with the arithmetic mean over
all `N` entity rows. -/
noncomputable def composite (N : ℕ)
    (score_fns : List ((ℕ → ℕ → ℝ) → (ℕ → ℤ) → ℕ → ℝ))
    (labels : ℕ → ℕ → ℝ) (counts : ℕ → ℤ) : List ℝ :=
  score_fns.map (fun f => (∑ i in Finset.range N, f labels counts i) / N)

theorem one_lt_logb_two_three : (1 : ℝ) < Real.logb 2 3 := by
  have h1 : Real.logb 2 2 < Real.logb 2 3 :=
    Real.logb_lt_logb (by norm_num) (by norm_num) (by norm_num)
  have h2 : Real.logb 2 2 = 1 := Real.logb_self_eq_one (by norm_num)
  linarith

/-- The value `ndcg_score` computes on a 2-column all-ones row with
total 2: numerator `1 + 1/log2 3`, denominator `1 + log2 3`. -/
theorem ndcg_score_two_ones :
    ndcg_score 2 (fun _ _ => 1) (NdcgTotal.vec (fun _ => 2)) 0 =
      (1 + 1 / Real.logb 2 3) / (1 + Real.logb 2 3) := by
  have h2 : Real.logb 2 2 = 1 := Real.logb_self_eq_one (by norm_num)
  have hc0 : ndcg_coefs 0 = 1 := by
    rw [ndcg_coefs]
    norm_num [h2]
  have hc1 : ndcg_coefs 1 = Real.logb 2 3 := by
    rw [ndcg_coefs]
    norm_num
  rw [ndcg_score]
  simp only [Finset.sum_range_succ, Finset.sum_range_zero]
  rw [hc0, hc1]
  have hv : ndcgTotalVec 2 (NdcgTotal.vec (fun _ => 2)) 0 = 2 := rfl
  rw [hv]
  norm_num

/-- The value `ndcg_spec` takes on the same input: exactly 1. -/
theorem ndcg_spec_two_ones :
    ndcg_spec 2 (fun _ _ => 1) (fun _ => 2) 0 = 1 := by
  have h2 : Real.logb 2 2 = 1 := Real.logb_self_eq_one (by norm_num)
  have h3 : (0 : ℝ) < Real.logb 2 3 := by linarith [one_lt_logb_two_three]
  have ha0 : Real.logb 2 (((0 : ℕ) : ℝ) + 2) = 1 := by norm_num [h2]
  have ha1 : Real.logb 2 (((1 : ℕ) : ℝ) + 2) = Real.logb 2 3 := by norm_num
  rw [ndcg_spec]
  have hmin : min ((2 : ℤ)).toNat 2 = 2 := rfl
  rw [hmin]
  simp only [Finset.sum_range_succ, Finset.sum_range_zero]
  rw [ha0, ha1]
  have hfrac : (0 : ℝ) < 1 / Real.logb 2 3 := one_div_pos.mpr h3
  have hne : (0 : ℝ) + 1 / 1 + 1 / Real.logb 2 3 ≠ 0 := by
    intro hc
    rw [div_one] at hc
    linarith
  rw [div_self hne]

theorem code_ndcg_value_lt_one :
    (1 + 1 / Real.logb 2 3) / (1 + Real.logb 2 3) < 1 := by
  have hL := one_lt_logb_two_three
  have h3 : (0 : ℝ) < Real.logb 2 3 := by linarith
  rw [div_lt_one (by linarith)]
  have hlt : 1 / Real.logb 2 3 < Real.logb 2 3 := by
    rw [div_lt_iff h3]
    nlinarith
  linarith

/-!
## Claims
-/

/-- Claim C1, counterexample: on a one-entity single-batch stream with
`K = 1`, the label matrix row returned by `rank` has `2 K = 2` columns, not
the `K = 1` columns the claim asserts: `rank` returns the full 2K-wide
working buffer. -/
theorem rank_full_buffer_width_example :
    (rankLabels (fun _ _ => 0) 0 [0] 1 [[(0, 5, 1)]] 0).length ≠ 1 ∧
    (rankLabels (fun _ _ => 0) 0 [0] 1 [[(0, 5, 1)]] 0).length = 2 * 1 := by
  decide

/-- Claim C1 (amended): for every stream and every registry entity, `rank`
returns a label matrix row of width `2 K` — the full sorted working buffer,
whose first `K` columns hold the global top-K — rather than an N×K matrix. -/
theorem rank_label_matrix_width (fill : ℕ → ℕ → ℤ) (pad : ℤ) (data : List ℕ)
    (K : ℕ) (bs : List Batch) (e : ℕ)
    (he : e ∈ data)
    (hne : ∀ b ∈ bs, b ≠ []) :
    (rankLabels fill pad data K bs e).length = 2 * K := by
  rw [rankLabels, List.length_map, (rankRun_invariant fill pad data K bs e).2.1]

theorem rank_label_matrix_width_witness :
    (0 : ℕ) ∈ ([0] : List ℕ) ∧
    (rankLabels (fun _ _ => 0) 0 [0] 2 [[(0, 5, 1)]] 0).length = 2 * 2 :=
  ⟨by decide, rank_label_matrix_width (fun _ _ => 0) 0 [0] 2 [[(0, 5, 1)]] 0
    (by decide) (by decide)⟩

/-- Claim C2: streaming top-K correctness.  For every stream of nonempty
batches whose entities are all in the registry, and every entity with at
least `K` items over the whole stream, the first `K` returned labels are the
labels of the `K` highest-scored items of the whole stream, sorted by
descending score (ties determinized by encounter order); the right-hand side
depends only on the concatenation of the batches, and the second conjunct
makes the independence of batch boundaries explicit. -/
theorem rank_streaming_topk_correct (fill : ℕ → ℕ → ℤ) (pad : ℤ)
    (data : List ℕ) (K : ℕ) (bs : List Batch) (e : ℕ)
    (hK : 0 < K)
    (hne : ∀ b ∈ bs, b ≠ [])
    (htr : ∀ b ∈ bs, ∀ t ∈ b, t.1 ∈ data)
    (hlen : K ≤ (allItems bs e).length) :
    (rankLabels fill pad data K bs e).take K = topKRef K (allItems bs e) ∧
    ∀ cs : List Batch, (∀ b ∈ cs, ∀ t ∈ b, t.1 ∈ data) →
      cs.flatten = bs.flatten →
      (rankLabels fill pad data K cs e).take K =
        (rankLabels fill pad data K bs e).take K := by
  have h1 := rankLabels_takeK fill pad data K bs e htr hlen
  refine ⟨h1, ?_⟩
  intro cs htrc hflat
  have hallc : allItems cs e = allItems bs e := by
    rw [allItems, allItems, hflat]
  have hlenc : K ≤ (allItems cs e).length := by
    rw [hallc]
    exact hlen
  rw [rankLabels_takeK fill pad data K cs e htrc hlenc, hallc, h1]

theorem rank_streaming_topk_correct_witness :
    0 < 1 ∧ 1 ≤ (allItems [[(0, 5, 1)], [(0, 3, 0)]] 0).length ∧
    (rankLabels (fun _ _ => 0) 0 [0] 1 [[(0, 5, 1)], [(0, 3, 0)]] 0).take 1 =
      topKRef 1 (allItems [[(0, 5, 1)], [(0, 3, 0)]] 0) :=
  ⟨Nat.one_pos, by decide,
    (rank_streaming_topk_correct (fun _ _ => 0) 0 [0] 1
      [[(0, 5, 1)], [(0, 3, 0)]] 0 Nat.one_pos (by decide) (by decide)
      (by decide)).1⟩

/-- Claim C3 (code bug): the claim states `ndcg_score` computes the spec's
formula, whose normalizer is `Σ 1/log2(r+2)`; the code instead multiplies
the mask by `coefs` and so divides by `Σ log2(r+2)`.  On the score row
`[1, 1]` with total `2` the code yields `(1 + 1/log2 3)/(1 + log2 3) < 1`
while the spec formula yields `1`. -/
theorem ndcg_score_denominator_diverges_from_spec :
    ndcg_score 2 (fun _ _ => 1) (NdcgTotal.vec (fun _ => 2)) 0 ≠
      ndcg_spec 2 (fun _ _ => 1) (fun _ => 2) 0 := by
  rw [ndcg_score_two_ones, ndcg_spec_two_ones]
  exact ne_of_lt code_ndcg_value_lt_one

/-- Claim C4: positive-count completeness.  For every stream of nonempty
batches with registry entities and binary labels, the returned count of an
entity is the total number of label-1 triples of that entity over the whole
stream — not capped at `K`. -/
theorem rank_pos_counts_complete (fill : ℕ → ℕ → ℤ) (pad : ℤ) (data : List ℕ)
    (K : ℕ) (bs : List Batch) (e : ℕ)
    (hne : ∀ b ∈ bs, b ≠ [])
    (htr : ∀ b ∈ bs, ∀ t ∈ b, t.1 ∈ data)
    (hbin : ∀ t ∈ bs.flatten, t.2.2 = 0 ∨ t.2.2 = 1) :
    rankPos fill pad data K bs e =
      (((allItems bs e).filter (fun p => decide (p.2 = 1))).length : ℤ) := by
  rw [rankPos_eq_label_sum fill pad data K bs e htr]
  refine label_sum_eq_count _ ?_
  intro p hp
  rcases List.mem_map.mp hp with ⟨t, ht, htp⟩
  have htf : t ∈ bs.flatten := List.mem_of_mem_filter ht
  rcases hbin t htf with h0 | h1
  · left
    rw [← htp]
    exact h0
  · right
    rw [← htp]
    exact h1

theorem rank_pos_counts_complete_witness :
    (∀ t ∈ ([[(0, 5, 1)], [(0, 3, 1)]] : List Batch).flatten,
      t.2.2 = 0 ∨ t.2.2 = 1) ∧
    rankPos (fun _ _ => 0) 0 [0] 1 [[(0, 5, 1)], [(0, 3, 1)]] 0 =
      (((allItems [[(0, 5, 1)], [(0, 3, 1)]] 0).filter
        (fun p => decide (p.2 = 1))).length : ℤ) :=
  ⟨by decide, rank_pos_counts_complete (fun _ _ => 0) 0 [0] 1
    [[(0, 5, 1)], [(0, 3, 1)]] 0 (by decide) (by decide) (by decide)⟩

/-- Claim C5, counterexample: with two entities of which entity 0 has
`pos_counts[0] = 0`, `recall_score` silently divides (its value at entity 0
is the junk value of the zero division, not a signaled undefined marker),
and `composite` averages over both entities: the returned scalar is `1/2`,
not the defined-entity mean `1`, so the undefined entity leaks into the
result. -/
theorem composite_zero_count_leak_example :
    composite 2 [recall_score 2]
        (fun i r => if i = 1 ∧ r = 0 then 1 else 0)
        (fun i => if i = 1 then 1 else 0) = [(1 : ℝ) / 2] ∧
    recall_score 2 (fun i r => if i = 1 ∧ r = 0 then 1 else 0)
        (fun i => if i = 1 then 1 else 0) 0 = 0 ∧
    ((1 : ℝ) / 2) ≠ 1 := by
  refine ⟨?_, ?_, by norm_num⟩
  · rw [composite]
    simp only [List.map_cons, List.map_nil]
    norm_num [recall_score, Finset.sum_range_succ]
  · rw [recall_score]
    norm_num

/-- Claim C5 (amended): `recall_score` divides unconditionally — an entity
with zero count yields the junk value of the division (the non-finite float
value in the code; `0` in this real-valued model) instead of a signaled
undefined marker — and `composite`'s mean runs over all `N` entities: the
zero-count entity is not excluded, it contributes nothing to the numerator
while still counting in the denominator `N`. -/
theorem composite_includes_zero_count_entities (N count : ℕ)
    (labels : ℕ → ℕ → ℝ) (counts : ℕ → ℤ) (i : ℕ)
    (hi : i < N) (h0 : counts i = 0) :
    composite N [recall_score count] labels counts =
      [(∑ j in (Finset.range N).erase i,
        recall_score count labels counts j) / N] ∧
    recall_score count labels counts i = 0 := by
  have hri : recall_score count labels counts i = 0 := by
    rw [recall_score, h0]
    simp
  refine ⟨?_, hri⟩
  have hsum : (∑ j in Finset.range N, recall_score count labels counts j) =
      ∑ j in (Finset.range N).erase i, recall_score count labels counts j := by
    rw [← Finset.sum_erase_add (Finset.range N) _ (Finset.mem_range.mpr hi),
      hri, add_zero]
  rw [composite]
  simp only [List.map_cons, List.map_nil]
  rw [hsum]

theorem composite_includes_zero_count_entities_witness :
    0 < 1 ∧
    composite 1 [recall_score 1] (fun _ _ => 0) (fun _ => 0) =
      [(∑ j in (Finset.range 1).erase 0,
        recall_score 1 (fun _ _ => 0) (fun _ => 0) j) / ((1 : ℕ) : ℝ)] :=
  ⟨Nat.one_pos, (composite_includes_zero_count_entities 1 1 (fun _ _ => 0)
    (fun _ => 0) 0 Nat.one_pos rfl).1⟩

/-- Claim C6 (code bug): the claim states NDCG equals 1 when all of the
entity's positives occupy the highest ranks; because the code's normalizer
sums `log2(r+2)` instead of `1/log2(r+2)`, the perfectly ranked row `[1, 1]`
with total `2` scores strictly below 1. -/
theorem ndcg_score_perfect_ranking_below_one :
    ndcg_score 2 (fun _ _ => 1) (NdcgTotal.vec (fun _ => 2)) 0 < 1 := by
  rw [ndcg_score_two_ones]
  exact code_ndcg_value_lt_one

/-- Claim C7: under the unstated precondition that the batch's source
indices are exactly the compact grouped pattern `0..R-1` in ascending
unique-id order with `n_id` ascending on the used indices, and that all
batch ids are tracked, every row index used by the temporary-matrix scatter
and the count scatter-add is strictly below the active-entity count and
addresses the row of that triple's own entity in sorted-unique-id order, and
every generated column index is strictly below the temporaries' width. -/
theorem scatter_in_bounds_and_aligned (nid counts gblUid : List ℕ) (K : ℕ)
    (si : List ℕ)
    (hsi : si = groupedIdx counts)
    (hcpos : ∀ c ∈ counts, 0 < c)
    (hmono : ∀ j < counts.length, ∀ i < j, nid.getD i 0 < nid.getD j 0)
    (hsub : ∀ x ∈ srcUidM nid si, x ∈ gblUid)
    (hnod : gblUid.Nodup) :
    (∀ v ∈ si, v < rowCntM gblUid nid si ∧
      (srcUidM nid si).getD v 0 = nid.getD v 0) ∧
    (∀ c ∈ colIdxM nid si, c < colCntM K nid si) :=
  ⟨scatter_aligned nid counts gblUid si hsi hcpos
      (fun i j hij hj => hmono j hj i hij) hsub hnod,
    colIdxM_lt_colCntM K nid si⟩

theorem scatter_in_bounds_and_aligned_witness :
    ([0, 1, 1] : List ℕ) = groupedIdx [1, 2] ∧
    (∀ v ∈ ([0, 1, 1] : List ℕ), v < rowCntM [3, 7] [3, 7] [0, 1, 1] ∧
      (srcUidM [3, 7] [0, 1, 1]).getD v 0 = ([3, 7] : List ℕ).getD v 0) :=
  ⟨by decide, (scatter_in_bounds_and_aligned [3, 7] [1, 2] [3, 7] 2 [0, 1, 1]
    (by decide) (by decide) (by decide) (by decide) (by decide)).1⟩

/-- Claim C8: frame condition per batch.  Processing one batch leaves every
entity outside that batch untouched: its buffer row (scores and labels, in
position), its returned label row, and its positive count are identical
before and after the batch — the unconditional re-sort of its row is the
identity because the row is already sorted. -/
theorem rank_batch_frame_condition (fill : ℕ → ℕ → ℤ) (pad : ℤ)
    (data : List ℕ) (K : ℕ) (bs : List Batch) (b : Batch) (e : ℕ)
    (hb : e ∉ b.map (fun t => t.1)) :
    (rankRun fill pad data K (bs ++ [b])).scrlbl e =
      (rankRun fill pad data K bs).scrlbl e ∧
    rankPos fill pad data K (bs ++ [b]) e = rankPos fill pad data K bs e ∧
    rankLabels fill pad data K (bs ++ [b]) e =
      rankLabels fill pad data K bs e := by
  rcases rankRun_frame fill pad data K bs b e hb with ⟨h1, h2⟩
  exact ⟨h1, h2, by rw [rankLabels, rankLabels, h1]⟩

theorem rank_batch_frame_condition_witness :
    (0 : ℕ) ∉ ([(1, 4, 0)] : Batch).map (fun t => t.1) ∧
    rankLabels (fun _ _ => 0) 0 [0, 1] 1 ([[(0, 5, 1)]] ++ [[(1, 4, 0)]]) 0 =
      rankLabels (fun _ _ => 0) 0 [0, 1] 1 [[(0, 5, 1)]] 0 :=
  ⟨by decide, (rank_batch_frame_condition (fun _ _ => 0) 0 [0, 1] 1
    [[(0, 5, 1)]] [(1, 4, 0)] 0 (by decide)).2.2⟩

/-- Claim C9, counterexample: the returned label row of a registry entity
that appears in no batch is not well-defined — it is whatever the
uninitialized `torch.empty` fill happened to contain, so two different fills
produce two different outputs. -/
theorem rank_untouched_labels_depend_on_fill :
    rankLabels (fun _ _ => 0) 0 [0, 1] 1 [[(0, 5, 1)]] 1 ≠
      rankLabels (fun _ _ => 7) 0 [0, 1] 1 [[(0, 5, 1)]] 1 := by
  decide

/-- Claim C9 (amended): a registry entity appearing in no batch keeps its
initial buffer row verbatim: every score is the `-inf` sentinel and the
returned label row equals the (arbitrary, uninitialized) initial fill — and
since only labels are returned, the values are arbitrary rather than
well-defined markers. -/
theorem rank_untouched_entity_keeps_init (fill : ℕ → ℕ → ℤ) (pad : ℤ)
    (data : List ℕ) (K : ℕ) (bs : List Batch) (e : ℕ)
    (he : e ∈ data)
    (h : ∀ b ∈ bs, e ∉ b.map (fun t => t.1)) :
    (rankRun fill pad data K bs).scrlbl e = initRow fill K e ∧
    rankLabels fill pad data K bs e = (List.range (2 * K)).map (fill e) ∧
    (∀ p ∈ (rankRun fill pad data K bs).scrlbl e, p.1 = (none : Option ℤ)) := by
  have h1 := rankRun_scrlbl_untouched fill pad data K bs e h
  refine ⟨h1, ?_, ?_⟩
  · rw [rankLabels, h1, initRow, List.map_map]
    rfl
  · rw [h1]
    exact initRow_key_none

theorem rank_untouched_entity_keeps_init_witness :
    (1 : ℕ) ∈ ([0, 1] : List ℕ) ∧
    rankLabels (fun _ _ => 9) 0 [0, 1] 1 [[(0, 5, 1)]] 1 =
      (List.range (2 * 1)).map ((fun _ _ => (9 : ℤ)) 1) :=
  ⟨by decide, (rank_untouched_entity_keeps_init (fun _ _ => 9) 0 [0, 1] 1
    [[(0, 5, 1)]] 1 (by decide) (by decide)).2.1⟩

/-- Claim C10: when `ndcg_score` receives an integer `total`, it replaces it
by the constant vector whose entries all equal `count` (the number of score
columns): the integer's value is ignored (any two integers give the same
result) and the normalizer sums the coefficients of all `count` ranks, as if
every entity had `count` positives. -/
theorem ndcg_int_total_ignored (count : ℕ) (score : ℕ → ℕ → ℝ) (t u : ℤ)
    (i : ℕ) :
    ndcg_score count score (NdcgTotal.int t) i =
      ndcg_score count score (NdcgTotal.int u) i ∧
    ndcgTotalVec count (NdcgTotal.int t) = (fun _ => (count : ℤ)) ∧
    ndcg_score count score (NdcgTotal.int t) i =
      (∑ r in Finset.range count, score i r / ndcg_coefs r) /
        (∑ r in Finset.range count, ndcg_coefs r) := by
  refine ⟨rfl, rfl, ?_⟩
  rw [ndcg_score]
  congr 1
  refine Finset.sum_congr rfl ?_
  intro r hr
  rw [if_pos]
  show (r : ℤ) < min ((count : ℤ)) (count : ℤ)
  rw [min_self]
  exact_mod_cast Finset.mem_range.mp hr

end GnnCF
